import Mathlib

/-!
Shallow embedding of `hg-reset.py` (hg-fast-export's reset reconciliation
tool) and proofs about its head computation, branch/tag classification and
command-line behaviour.

Mercurial revisions are modelled as `Int` (the null revision is `-1`),
changeset nodes as `String`, and the `reachable`/`heads` Python dicts of
the head scan as insertion-ordered duplicate-free key lists (`List Int`),
which is exactly how CPython dicts behave under key insertion and `del`.
Python byte-string objects are modelled as a value together with an object
identity (`PyBytes`), so that both `==` (value equality) and `is` (object
identity) comparisons of the source are expressible.
The external backend surface the script consumes (`repo.changelog`,
`get_changeset`, `get_git_sha1`, `repo.tagslist`) is abstracted as record
fields quantified over in the theorems, following the capability interface
the design notes describe.
-/

namespace HgReset

/-- A Python byte-string object: its value together with an object id.
`oid` distinguishes two separately constructed objects with equal value. -/
structure PyBytes where
  oid : Nat
  val : String
deriving DecidableEq, Repr

/-- Python `x is y` on optional byte strings: `None` is identical only to
`None`, and two byte-string objects are identical iff their object ids
coincide. -/
def pyIs : Option PyBytes → Option PyBytes → Bool
  | none, none => true
  | some a, some b => a.oid == b.oid
  | _, _ => false

/-- Changeset node identifiers (opaque; mercurial uses 20-byte strings). -/
abbrev Node := String

/-- The mercurial `node.nullid` sentinel. -/
def nullid : Node := ""

/-- The slice of `repo.changelog` that `hg-reset.py` uses: node↔revision
translation, direct parent revisions of a revision, and the total
changeset count. -/
structure Changelog where
  rev : Node → Int
  node : Int → Node
  parentrevs : Int → List Int
  count : Int

/-- Python dict key insertion `d[x] = 1` on an insertion-ordered key list:
a new key is appended, an existing key keeps its position. -/
def dinsert (l : List Int) (x : Int) : List Int :=
  if x ∈ l then l else l ++ [x]

/-- Lines 32-35 of `heads`: if the parent `p` is reachable, `r` becomes
reachable (unless `r` is a stop revision) and `r` is marked a head.
State is the pair `(reachable, heads)`. -/
def markReach (stoprevs : List Int) (r p : Int) (st : List Int × List Int) :
    List Int × List Int :=
  if p ∈ st.1 then
    (if r ∈ stoprevs then st.1 else dinsert st.1 r, dinsert st.2 r)
  else st

/-- Lines 36-37 of `heads`: if the parent `p` is currently a head and not a
stop revision, delete it from the head set. -/
def demote (stoprevs : List Int) (p : Int) (st : List Int × List Int) :
    List Int × List Int :=
  if p ∈ st.2 ∧ p ∉ stoprevs then (st.1, st.2.erase p) else st

/-- The body of the inner loop `for p in parentrevs(r)` (lines 31-37). -/
def stepParent (stoprevs : List Int) (r : Int) (st : List Int × List Int)
    (p : Int) : List Int × List Int :=
  demote stoprevs p (markReach stoprevs r p st)

/-- The body of the scan `for r in range(startrev + 1, max)` (lines 30-37). -/
def stepRev (parentrevs : Int → List Int) (stoprevs : List Int)
    (st : List Int × List Int) (r : Int) : List Int × List Int :=
  (parentrevs r).foldl (stepParent stoprevs r) st

/-- Python `range(a, b)` over integers: `[a, a+1, ..., b-1]`, empty when
`b ≤ a`. -/
def intRange (a b : Int) : List Int :=
  (List.range (b - a).toNat).map (fun i : Nat => a + (i : Int))

/-- `heads` of `hg-reset.py` (lines 14-39): the bounded head scan.  `start`
defaults to `nullid`, `stop` to the empty list and `max` to
`repo.changelog.count()`.  Returns the surviving heads in dict order, each
paired with its revision number (kept as an integer; the source formats it
as a decimal byte string). -/
def heads (cl : Changelog) (start : Option Node) (stop : List Node)
    (max : Option Int) : List (Node × Int) :=
  let maxv := max.getD cl.count
  let stoprevs := stop.map cl.rev
  let startrev := cl.rev (start.getD nullid)
  let st := (intRange (startrev + 1) maxv).foldl
    (stepRev cl.parentrevs stoprevs) ([startrev], [startrev])
  st.2.map (fun r => (cl.node r, r))

/-- The changeset metadata `get_changeset` yields that `hg-reset.py`
destructures: author, description and branch name. -/
structure Changeset where
  user : String
  desc : String
  branch : String

/-- The external backend surface consumed by `get_branches` and
`get_tags`: the changelog, per-revision changeset metadata
(`get_changeset`), the currently recorded git identifier of a branch
(`get_git_sha1`), and the repository's tag list (`repo.tagslist()`). -/
structure Repo where
  cl : Changelog
  changeset : Int → Changeset
  git_sha1 : String → Option PyBytes
  tagslist : List (String × Node)

/-- `desc.split(b"\n")[0]`: the first line of a description, i.e. its
characters up to (excluding) the first newline. -/
def firstLine (s : String) : String :=
  String.mk (s.data.takeWhile (fun c => c != '\n'))

/-- Insert `x` into `l` before the first element it compares
less-or-equal to. -/
def insertLe {α : Type} (le : α → α → Bool) (x : α) : List α → List α
  | [] => [x]
  | y :: ys => if le x y then x :: y :: ys else y :: insertLe le x ys

/-- A stable sort by the boolean comparison `le`, modelling Python's
stable `list.sort()`. -/
def sortLe {α : Type} (le : α → α → Bool) : List α → List α
  | [] => []
  | x :: xs => insertLe le x (sortLe le xs)

/-- One entry of `changed`/`unchanged`:
`[branch, cache_sha1, rev, desc.split(b"\n")[0], user]`. -/
structure BranchRec where
  branch : String
  sha : Option PyBytes
  rev : Int
  desc : String
  user : String
deriving DecidableEq, Repr

/-- Ordering of optional byte strings used by record sorting (absent
identifiers first, then by value). -/
def optLt (a b : Option PyBytes) : Bool :=
  match a, b with
  | none, none => false
  | none, some _ => true
  | some _, none => false
  | some a, some b => a.val < b.val

/-- Lexicographic comparison of branch records, field by field, modelling
Python's `list.sort()` on the five-element record lists. -/
def brLe (a b : BranchRec) : Bool :=
  a.branch < b.branch ||
    (a.branch == b.branch && (optLt a.sha b.sha ||
      (a.sha == b.sha && (a.rev < b.rev ||
        (a.rev == b.rev && (a.desc < b.desc ||
          (a.desc == b.desc && !(b.user < a.user))))))))

/-- The per-head loop of `get_branches` (lines 47-55).  `stale` is the
insertion-ordered key list of `dict.fromkeys(heads_cache)`; the `none`
result models the uncaught `KeyError` raised by `del stale[branch]` when
the head's branch is not (or no longer) a key of `stale`. -/
def branchLoop (repo : Repo) (marks_cache : Int → Option PyBytes) :
    List (Node × Int) → List String → List BranchRec → List BranchRec →
    Option (List String × List BranchRec × List BranchRec)
  | [], stale, changed, unchanged => some (stale, changed, unchanged)
  | (_, rev) :: rest, stale, changed, unchanged =>
    let cs := repo.changeset rev
    if cs.branch ∈ stale then
      let git := repo.git_sha1 cs.branch
      let cache := marks_cache (rev + 1)
      let rcd : BranchRec := ⟨cs.branch, cache, rev, firstLine cs.desc, cs.user⟩
      if pyIs git none = false ∧ pyIs git cache = true then
        branchLoop repo marks_cache rest (stale.erase cs.branch) changed
          (unchanged ++ [rcd])
      else
        branchLoop repo marks_cache rest (stale.erase cs.branch)
          (changed ++ [rcd]) unchanged
    else none

/-- `get_branches` of `hg-reset.py` (lines 42-58): run the head scan with
the given ceiling, classify each head against the recorded git identifier
(`git_sha1 is not None and git_sha1 is cache_sha1`, looked up in
`marks_cache` under `int(rev) + 1`), and return
`(stale, changed, unchanged)` with `changed` and `unchanged` sorted. -/
def get_branches (repo : Repo) (heads_cache : List String)
    (marks_cache : Int → Option PyBytes) (max : Int) :
    Option (List String × List BranchRec × List BranchRec) :=
  match branchLoop repo marks_cache (heads repo.cl none [] (some max))
      heads_cache [] [] with
  | none => none
  | some (stale, changed, unchanged) =>
      some (stale, sortLe brLe changed, sortLe brLe unchanged)

/-- One entry of `good`/`bad`:
`[tag, branch, cache_sha1, rev, desc.split(b"\n")[0], user]`. -/
structure TagRec where
  tag : String
  branch : String
  sha : Option PyBytes
  rev : Int
  desc : String
  user : String
deriving DecidableEq, Repr

/-- Lexicographic comparison of tag records, modelling Python's
`list.sort()` on the six-element record lists. -/
def tagLe (a b : TagRec) : Bool :=
  a.tag < b.tag ||
    (a.tag == b.tag && (a.branch < b.branch ||
      (a.branch == b.branch && (optLt a.sha b.sha ||
        (a.sha == b.sha && (a.rev < b.rev ||
          (a.rev == b.rev && (a.desc < b.desc ||
            (a.desc == b.desc && !(b.user < a.user))))))))))

/-- The per-tag loop of `get_tags` (lines 64-73).  `mapping_cache` keys are
the hex digests of changeset nodes; since `hexlify` is injective it is
modelled as a lookup keyed by the node itself, with values already parsed
to integers.  The `none` result models the uncaught `KeyError` raised by
`mapping_cache[hexlify(node)]` when the tag's changeset was never mapped. -/
def tagLoop (repo : Repo) (marks_cache : Int → Option PyBytes)
    (mapping_cache : Node → Option Int) (max : Int) :
    List (String × Node) → List TagRec → List TagRec →
    Option (List TagRec × List TagRec)
  | [], good, bad => some (good, bad)
  | (tag, nd) :: rest, good, bad =>
    if tag = "tip" then tagLoop repo marks_cache mapping_cache max rest good bad
    else
      match mapping_cache nd with
      | none => none
      | some rev =>
        let cache := marks_cache (rev + 1)
        let cs := repo.changeset rev
        let rcd : TagRec := ⟨tag, cs.branch, cache, rev, firstLine cs.desc, cs.user⟩
        if max < rev then
          tagLoop repo marks_cache mapping_cache max rest good (bad ++ [rcd])
        else
          tagLoop repo marks_cache mapping_cache max rest (good ++ [rcd]) bad

/-- `get_tags` of `hg-reset.py` (lines 61-76): skip the `tip` pseudo-tag,
resolve each remaining tag's owning revision through `mapping_cache`, and
classify it `bad` when `int(rev) > int(max)`, else `good`; both lists are
sorted. -/
def get_tags (repo : Repo) (marks_cache : Int → Option PyBytes)
    (mapping_cache : Node → Option Int) (max : Int) :
    Option (List TagRec × List TagRec) :=
  match tagLoop repo marks_cache mapping_cache max repo.tagslist [] [] with
  | none => none
  | some (good, bad) => some (sortLe tagLe good, sortLe tagLe bad)

/-- `mangle_mark` of `hg-reset.py` (lines 79-80): the off-by-one key
correction applied when loading the marks cache. -/
def mangle_mark (mark : Int) : Int := mark - 1

/-- The text `parser.print_help()` emits.  `optparse`'s `print_help`
writes this usage/help text to standard output. -/
def usageText : String := "Usage: hg-reset.py [options]"

/-- `bail` of `hg-reset.py` (lines 85-88) as observable behaviour:
`(exit code, standard-error lines, standard-output lines)`.  The error
diagnostic goes to standard error; `parser.print_help()` sends the usage
text to standard output; the process exits with code 2. -/
def bail (opt : String) : Nat × List String × List String :=
  (2, ["Error: No option " ++ opt ++ " given\n"], [usageText])

/-- The six option values produced by the `optparse` parser; `none` is a
flag the invocation did not supply. -/
structure CmdOptions where
  marksfile : Option String
  mappingfile : Option String
  headsfile : Option String
  statusfile : Option String
  repourl : Option String
  revision : Option Int
deriving DecidableEq, Repr

/-- The required-flag checks of `__main__` (lines 111-122), in source
order: `some` is the observable behaviour of the `bail` call that fires,
`none` means all six flags were supplied. -/
def checkOptions (o : CmdOptions) : Option (Nat × List String × List String) :=
  if o.marksfile = none then some (bail "--marks option")
  else if o.mappingfile = none then some (bail "--mapping option")
  else if o.headsfile = none then some (bail "--heads option")
  else if o.statusfile = none then some (bail "--status option")
  else if o.repourl = none then some (bail "--repo option")
  else if o.revision = none then some (bail "-R/--revision")
  else none

/-- The tip precondition of `__main__` (lines 129-135):
`list = int(state_cache.get(b"tip", options.revision))`, and when
`options.revision + 1 > list` the tool writes one diagnostic line to
standard error and exits with code 1.  `tip` is the parsed value of the
status cache's `tip` entry, `none` when the key is absent. -/
def tipCheck (revision : Int) (tip : Option Int) : Option (Nat × String) :=
  let l := tip.getD revision
  if revision + 1 > l then
    some (1, "Revision is beyond last revision imported: " ++
      toString revision ++ ">" ++ toString l ++ "\n")
  else none

/-- The tail of `__main__` after cache loading, as observable behaviour
`(exit code, standard-error lines, standard-output lines)`: the tip
precondition gates the whole report, whose lines are abstracted as
`reportLines`. -/
def mainRun (revision : Int) (tip : Option Int) (reportLines : List String) :
    Nat × List String × List String :=
  match tipCheck revision tip with
  | some (c, e) => (c, [e], [])
  | none => (0, [], reportLines)

/-! Concrete backends used to evaluate the embedding on explicit inputs. -/

/-- A changelog in which every node has revision 0 and revision 0 has no
parents. -/
def clA : Changelog := ⟨fun _ => 0, fun _ => "n", fun _ => [], 5⟩

/-- A changelog with a single revision 0 whose parent is the null
revision `-1`; `nullid` has revision `-1`, every other node revision 0. -/
def clB : Changelog :=
  ⟨fun n => if n = nullid then -1 else 0,
   fun r => if r = 0 then "n0" else "x",
   fun r => if r = 0 then [-1] else [], 1⟩

/-- A backend over `clB` whose single head lies on branch `b`, with a
recorded git identifier of value `abc` (object id 1) for that branch. -/
def repoB : Repo :=
  ⟨clB, fun _ => ⟨"alice", "msg", "b"⟩,
   fun br => if br = "b" then some ⟨1, "abc"⟩ else none, []⟩

/-- A marks cache holding, under key 1, a byte string of value `abc` that
is a different object (object id 2) than the one `repoB` records. -/
def marksB : Int → Option PyBytes :=
  fun n => if n = 1 then some ⟨2, "abc"⟩ else none

/-- The empty marks cache. -/
def marksNone : Int → Option PyBytes := fun _ => none

/-- A backend over `clB` with no recorded git identifiers and a single
tag `v1` on node `nt`. -/
def repoT : Repo :=
  ⟨clB, fun _ => ⟨"alice", "msg", "b"⟩, fun _ => none, [("v1", "nt")]⟩

/-- A mapping cache sending tag node `nt` to revision 10. -/
def mpcT : Node → Option Int := fun n => if n = "nt" then some 10 else none

/-- A mapping cache sending tag node `nt` to revision 0. -/
def mpcW : Node → Option Int := fun n => if n = "nt" then some 0 else none

/-- An invocation supplying every required flag except `--marks`. -/
def cmdMissingMarks : CmdOptions :=
  ⟨none, some "m", some "h", some "s", some "r", some 3⟩

/-- Exactly one of three alternatives holds. -/
def exactlyOne3 (a b c : Prop) : Prop :=
  (a ∧ ¬ b ∧ ¬ c) ∨ (¬ a ∧ b ∧ ¬ c) ∨ (¬ a ∧ ¬ b ∧ c)

/-! Helper lemmas about the head scan. -/

theorem mem_dinsert {l : List Int} {x y : Int} :
    y ∈ dinsert l x ↔ y ∈ l ∨ y = x := by
  unfold dinsert
  split
  · rename_i hx
    constructor
    · exact Or.inl
    · rintro (hy | rfl)
      · exact hy
      · exact hx
  · simp

theorem dinsert_nodup {l : List Int} {x : Int} (h : l.Nodup) :
    (dinsert l x).Nodup := by
  unfold dinsert
  split
  · exact h
  · rename_i hx
    simp [List.nodup_append, h, hx]

theorem mem_markReach_snd {s : List Int} {r p x : Int}
    {st : List Int × List Int} (h : x ∈ (markReach s r p st).2) :
    x ∈ st.2 ∨ x = r := by
  unfold markReach at h
  split at h
  · exact mem_dinsert.mp h
  · exact Or.inl h

theorem mem_demote_snd {s : List Int} {p x : Int} {st : List Int × List Int}
    (h : x ∈ (demote s p st).2) : x ∈ st.2 := by
  unfold demote at h
  split at h
  · exact List.mem_of_mem_erase h
  · exact h

theorem mem_stepParent_snd {s : List Int} {r p x : Int}
    {st : List Int × List Int} (h : x ∈ (stepParent s r st p).2) :
    x ∈ st.2 ∨ x = r :=
  mem_markReach_snd (mem_demote_snd h)

theorem mem_stepParentFold_snd {s : List Int} {r x : Int} :
    ∀ (ps : List Int) (st : List Int × List Int),
      x ∈ (ps.foldl (stepParent s r) st).2 → x ∈ st.2 ∨ x = r := by
  intro ps
  induction ps with
  | nil => exact fun st h => Or.inl h
  | cons p ps ih =>
    intro st h
    rcases ih (stepParent s r st p) h with h' | h'
    · exact mem_stepParent_snd h'
    · exact Or.inr h'

theorem mem_stepRev_snd {pr : Int → List Int} {s : List Int} {r x : Int}
    {st : List Int × List Int} (h : x ∈ (stepRev pr s st r).2) :
    x ∈ st.2 ∨ x = r :=
  mem_stepParentFold_snd _ _ h

theorem mem_scanFold_snd {pr : Int → List Int} {s : List Int} {x : Int} :
    ∀ (L : List Int) (st : List Int × List Int),
      x ∈ (L.foldl (stepRev pr s) st).2 → x ∈ st.2 ∨ x ∈ L := by
  intro L
  induction L with
  | nil => exact fun st h => Or.inl h
  | cons r L ih =>
    intro st h
    rcases ih (stepRev pr s st r) h with h' | h'
    · rcases mem_stepRev_snd h' with h'' | h''
      · exact Or.inl h''
      · exact Or.inr (by simp [h''])
    · exact Or.inr (List.mem_cons_of_mem _ h')

theorem mem_intRange {a b x : Int} (h : x ∈ intRange a b) :
    a ≤ x ∧ x < b := by
  unfold intRange at h
  simp only [List.mem_map, List.mem_range] at h
  obtain ⟨i, hi, rfl⟩ := h
  omega

theorem intRange_eq_nil {a b : Int} (h : b ≤ a) : intRange a b = [] := by
  unfold intRange
  have h0 : (b - a).toNat = 0 := by omega
  simp [h0]

/-- C1 counterexample: take the step that processes revision `r = 1` with
parent `p = 0` when `1` is a stop revision, starting from
`reachable = heads = {0}`.  The parent `p` is reachable, yet `r` does not
become reachable (the code guards `reachable[r] = 1`, not `heads[r] = 1`,
by the stop check) — and `r` is marked a head even though it is a stop
revision.  This refutes the claimed per-step behaviour. -/
theorem stepParent_stop_revision_counterexample :
    (0 : Int) ∈ ([0] : List Int) ∧
    (1 : Int) ∈ ([1] : List Int) ∧
    (1 : Int) ∉ (stepParent [1] 1 ([0], [0]) 0).1 ∧
    (1 : Int) ∈ (stepParent [1] 1 ([0], [0]) 0).2 := by decide

/-- C1 (amended): in each step of the head scan processing parent `p` of
revision `r` (with `p ≠ r`, as parents precede their children, and a
duplicate-free head set, as dict keys are), whenever `p` is in the
reachable set, `r` is marked a candidate head unconditionally, and `r`
becomes reachable unless `r` is itself a stop revision (in which case the
reachable set is unchanged); and whenever `p` is currently a head and not
a stop revision, `p` is deleted from the head set. -/
theorem stepParent_marks_head_and_guards_reachable
    (stoprevs : List Int) (r p : Int) (st : List Int × List Int)
    (hpr : p ≠ r) (hnd : st.2.Nodup) :
    (p ∈ st.1 → r ∈ (stepParent stoprevs r st p).2 ∧
      (r ∉ stoprevs → r ∈ (stepParent stoprevs r st p).1) ∧
      (r ∈ stoprevs → (stepParent stoprevs r st p).1 = st.1)) ∧
    (p ∈ st.2 → p ∉ stoprevs → p ∉ (stepParent stoprevs r st p).2) := by
  obtain ⟨R, H⟩ := st
  constructor
  · intro hpR
    by_cases hrs : r ∈ stoprevs
    · have hm : markReach stoprevs r p (R, H) = (R, dinsert H r) := by
        unfold markReach
        simp [hpR, hrs]
      unfold stepParent
      rw [hm]
      unfold demote
      split
      · refine ⟨?_, fun hc => absurd hrs hc, fun _ => rfl⟩
        exact (List.mem_erase_of_ne (Ne.symm hpr)).mpr
          (mem_dinsert.mpr (Or.inr rfl))
      · exact ⟨mem_dinsert.mpr (Or.inr rfl), fun hc => absurd hrs hc,
          fun _ => rfl⟩
    · have hm : markReach stoprevs r p (R, H) = (dinsert R r, dinsert H r) := by
        unfold markReach
        simp [hpR, hrs]
      unfold stepParent
      rw [hm]
      unfold demote
      split
      · refine ⟨?_, fun _ => mem_dinsert.mpr (Or.inr rfl),
          fun hc => absurd hc hrs⟩
        exact (List.mem_erase_of_ne (Ne.symm hpr)).mpr
          (mem_dinsert.mpr (Or.inr rfl))
      · exact ⟨mem_dinsert.mpr (Or.inr rfl),
          fun _ => mem_dinsert.mpr (Or.inr rfl), fun hc => absurd hc hrs⟩
  · intro hpH hps
    by_cases hpR : p ∈ R
    · have hm : markReach stoprevs r p (R, H) =
          (if r ∈ stoprevs then R else dinsert R r, dinsert H r) := by
        unfold markReach
        simp [hpR]
      unfold stepParent
      rw [hm]
      unfold demote
      rw [if_pos ⟨mem_dinsert.mpr (Or.inl hpH), hps⟩]
      intro hc
      exact absurd ((dinsert_nodup hnd).mem_erase_iff.mp hc).1 (by simp)
    · have hm : markReach stoprevs r p (R, H) = (R, H) := by
        unfold markReach
        simp [hpR]
      unfold stepParent
      rw [hm]
      unfold demote
      rw [if_pos ⟨hpH, hps⟩]
      intro hc
      exact absurd (hnd.mem_erase_iff.mp hc).1 (by simp)

/-- C1 witness: with no stop revisions, processing `r = 1` with reachable
parent `p = 0` from `reachable = heads = {0}` marks `1` a head and makes
it reachable. -/
theorem stepParent_marks_head_witness :
    (1 : Int) ∈ (stepParent [] 1 ([0], [0]) 0).2 ∧
    (1 : Int) ∈ (stepParent [] 1 ([0], [0]) 0).1 :=
  ⟨((stepParent_marks_head_and_guards_reachable [] 1 0 ([0], [0])
      (by decide) (by decide)).1 (by decide)).1,
   ((stepParent_marks_head_and_guards_reachable [] 1 0 ([0], [0])
      (by decide) (by decide)).1 (by decide)).2.1 (by decide)⟩

/-- C5 counterexample: over the changelog `clA` (start revision 0) with
ceiling `max = 0`, the scan is empty and the head finder still returns the
start revision 0, which is not strictly less than `max`. -/
theorem heads_rev_lt_max_counterexample :
    ("n", (0 : Int)) ∈ heads clA none [] (some 0) ∧ ¬ ((0 : Int) < 0) := by
  decide

/-- C5 (amended): provided the start revision lies below the ceiling,
every revision number returned by the head finder is strictly less than
the ceiling. -/
theorem heads_rev_lt_max (cl : Changelog) (start : Option Node)
    (stop : List Node) (maxOpt : Option Int)
    (h : cl.rev (start.getD nullid) < maxOpt.getD cl.count) :
    ∀ q ∈ heads cl start stop maxOpt, q.2 < maxOpt.getD cl.count := by
  intro q hq
  unfold heads at hq
  simp only [List.mem_map] at hq
  obtain ⟨rv, hrv, rfl⟩ := hq
  rcases mem_scanFold_snd _ _ hrv with h1 | h1
  · simp only [List.mem_singleton] at h1
    simpa [h1] using h
  · simpa using (mem_intRange h1).2

/-- C5 witness: over `clA` with ceiling 1, the returned head `("n", 0)`
has revision below the ceiling. -/
theorem heads_rev_lt_max_witness :
    ("n", (0 : Int)) ∈ heads clA none [] (some 1) ∧
    (("n", (0 : Int)).2 < (1 : Int)) :=
  ⟨by decide,
   heads_rev_lt_max clA none [] (some 1) (by decide) ("n", 0) (by decide)⟩

/-- C6 (confirmed): whenever the ceiling is at most the start revision
plus one, the scan range is empty — the scan body never executes — and
the head finder returns exactly the singleton head for the start
revision. -/
theorem heads_trivial_scan (cl : Changelog) (start : Option Node)
    (stop : List Node) (maxOpt : Option Int)
    (h : maxOpt.getD cl.count ≤ cl.rev (start.getD nullid) + 1) :
    intRange (cl.rev (start.getD nullid) + 1) (maxOpt.getD cl.count) = [] ∧
    heads cl start stop maxOpt =
      [(cl.node (cl.rev (start.getD nullid)), cl.rev (start.getD nullid))] := by
  have hnil := intRange_eq_nil h
  refine ⟨hnil, ?_⟩
  unfold heads
  simp [hnil]

/-- C6 witness: over `clA` (start revision 0) with ceiling 0 ≤ 0 + 1, the
result is exactly the singleton head for revision 0. -/
theorem heads_trivial_scan_witness :
    heads clA none [] (some 0) = [("n", (0 : Int))] :=
  (heads_trivial_scan clA none [] (some 0) (by decide)).2

/-- C7 (confirmed): when the status cache records a tip `t` and
`revision + 1 > t`, the tool writes a single diagnostic line to standard
error and exits with code 1, producing no report line on standard
output. -/
theorem tip_precondition_aborts (revision t : Int) (rpt : List String)
    (h : revision + 1 > t) :
    mainRun revision (some t) rpt =
      (1, ["Revision is beyond last revision imported: " ++
        toString revision ++ ">" ++ toString t ++ "\n"], []) := by
  unfold mainRun tipCheck
  simp [h]

/-- C7 witness: `--revision 100` against a recorded tip of 50 aborts with
exit code 1, one standard-error line and no report lines. -/
theorem tip_precondition_aborts_witness :
    mainRun 100 (some 50) ["Possibly stale branches:"] =
      (1, ["Revision is beyond last revision imported: " ++
        toString (100 : Int) ++ ">" ++ toString (50 : Int) ++ "\n"], []) :=
  tip_precondition_aborts 100 50 ["Possibly stale branches:"] (by decide)

/-- C8 counterexample: an invocation missing only `--marks` exits with
code 2, but the usage text is printed to standard output by
`parser.print_help()`; standard error carries only the one-line
diagnostic, so the usage text is not among the standard-error lines. -/
theorem missing_flag_usage_on_stdout_counterexample :
    checkOptions cmdMissingMarks =
      some (2, ["Error: No option --marks option given\n"], [usageText]) ∧
    usageText ∉ ["Error: No option --marks option given\n"] := by decide

/-- C8 (amended): for every invocation missing any one of the six
required flags, the tool exits with code 2, writes a one-line diagnostic
to standard error, and the usage text is printed to standard output (not
standard error). -/
theorem missing_flag_exit2 (o : CmdOptions)
    (h : o.marksfile = none ∨ o.mappingfile = none ∨ o.headsfile = none ∨
      o.statusfile = none ∨ o.repourl = none ∨ o.revision = none) :
    ∃ e, checkOptions o = some (2, [e], [usageText]) := by
  unfold checkOptions bail
  split_ifs <;> first
    | exact ⟨_, rfl⟩
    | simp_all

/-- C8 witness: the invocation missing only `--marks` exits with code 2
with the usage text on standard output. -/
theorem missing_flag_exit2_witness :
    ∃ e, checkOptions cmdMissingMarks = some (2, [e], [usageText]) :=
  missing_flag_exit2 cmdMissingMarks (Or.inl rfl)

/-- C10 (confirmed): when the status cache has no `tip` key, the check
substitutes `options.revision` itself for the tip, so
`revision + 1 > tip` always holds and the tool always exits with code 1,
one diagnostic line on standard error and no report lines. -/
theorem missing_tip_always_aborts (revision : Int) (rpt : List String) :
    revision + 1 > revision ∧
    mainRun revision none rpt =
      (1, ["Revision is beyond last revision imported: " ++
        toString revision ++ ">" ++ toString revision ++ "\n"], []) := by
  refine ⟨by omega, ?_⟩
  have hgt : revision + 1 > revision := by omega
  unfold mainRun tipCheck
  simp [hgt]

/-! Helper lemmas about the classification loops. -/

theorem mem_insertLe {α : Type} {le : α → α → Bool} {x y : α} :
    ∀ {l : List α}, y ∈ insertLe le x l ↔ y ∈ l ∨ y = x := by
  intro l
  induction l with
  | nil => simp [insertLe]
  | cons z zs ih =>
    simp only [insertLe]
    split
    · simp only [List.mem_cons]
      tauto
    · simp only [List.mem_cons, ih]
      tauto

theorem mem_sortLe {α : Type} {le : α → α → Bool} {y : α} :
    ∀ {l : List α}, y ∈ sortLe le l ↔ y ∈ l := by
  intro l
  induction l with
  | nil => simp [sortLe]
  | cons z zs ih =>
    simp only [sortLe, mem_insertLe, List.mem_cons, ih]
    tauto

theorem mem_map_sortLe {α β : Type} {f : α → β} {le : α → α → Bool}
    {l : List α} {y : β} : y ∈ (sortLe le l).map f ↔ y ∈ l.map f := by
  simp only [List.mem_map, mem_sortLe]

theorem branchLoop_some_branch_mem {repo : Repo} {mc : Int → Option PyBytes} :
    ∀ (hs : List (Node × Int)) (stale : List String) (ch un : List BranchRec)
      (r : List String × List BranchRec × List BranchRec),
      branchLoop repo mc hs stale ch un = some r →
      ∀ nd rv, (nd, rv) ∈ hs → (repo.changeset rv).branch ∈ stale := by
  intro hs
  induction hs with
  | nil =>
    intro stale ch un r _ nd rv h
    simp at h
  | cons hd rest ih =>
    obtain ⟨nd0, rv0⟩ := hd
    intro stale ch un r hres nd rv hmem
    simp only [branchLoop] at hres
    by_cases hcs : (repo.changeset rv0).branch ∈ stale
    · rw [if_pos hcs] at hres
      rcases List.mem_cons.mp hmem with heq | hmem'
      · obtain ⟨h1, h2⟩ := Prod.mk.injEq .. ▸ heq
        rw [h2]
        exact hcs
      · split at hres
        · exact List.mem_of_mem_erase (ih _ _ _ _ hres nd rv hmem')
        · exact List.mem_of_mem_erase (ih _ _ _ _ hres nd rv hmem')
    · rw [if_neg hcs] at hres
      exact Option.noConfusion hres

theorem branchLoop_partition {repo : Repo} {mc : Int → Option PyBytes} :
    ∀ (hs : List (Node × Int)) (stale : List String) (ch un : List BranchRec)
      (stale' : List String) (ch' un' : List BranchRec),
      branchLoop repo mc hs stale ch un = some (stale', ch', un') →
      stale.Nodup →
      ∀ bn, exactlyOne3 (bn ∈ stale) (bn ∈ ch.map BranchRec.branch)
          (bn ∈ un.map BranchRec.branch) →
        exactlyOne3 (bn ∈ stale') (bn ∈ ch'.map BranchRec.branch)
          (bn ∈ un'.map BranchRec.branch) := by
  intro hs
  induction hs with
  | nil =>
    intro stale ch un stale' ch' un' hres hnd bn hone
    simp only [branchLoop, Option.some.injEq, Prod.mk.injEq] at hres
    obtain ⟨h1, h2, h3⟩ := hres
    rw [← h1, ← h2, ← h3]
    exact hone
  | cons hd rest ih =>
    obtain ⟨nd0, rv0⟩ := hd
    intro stale ch un stale' ch' un' hres hnd bn hone
    simp only [branchLoop] at hres
    by_cases hcs : (repo.changeset rv0).branch ∈ stale
    · rw [if_pos hcs] at hres
      have hnd' : (stale.erase (repo.changeset rv0).branch).Nodup :=
        hnd.erase _
      by_cases hbc : bn = (repo.changeset rv0).branch
      · -- the processed head's branch: it moves from stale to the record
        -- list the classification appends to
        rcases hone with ⟨h1, h2, h3⟩ | ⟨h1, _, _⟩ | ⟨h1, _, _⟩
        · have hne : bn ∉ stale.erase (repo.changeset rv0).branch := by
            intro hmem
            exact ((hnd.mem_erase_iff).mp hmem).1 hbc
          split at hres
          · exact ih _ _ _ _ _ _ hres hnd' bn
              (Or.inr (Or.inr ⟨hne, h2, by simp [hbc]⟩))
          · exact ih _ _ _ _ _ _ hres hnd' bn
              (Or.inr (Or.inl ⟨hne, by simp [hbc], h3⟩))
        · rw [hbc] at h1
          exact absurd hcs h1
        · rw [hbc] at h1
          exact absurd hcs h1
      · -- an unrelated branch name keeps its classification status
        have e1 : bn ∈ stale.erase (repo.changeset rv0).branch ↔ bn ∈ stale :=
          List.mem_erase_of_ne hbc
        split at hres
        · refine ih _ _ _ _ _ _ hres hnd' bn ?_
          have e3 : bn ∈ (un ++
              [(⟨(repo.changeset rv0).branch, mc (rv0 + 1), rv0,
                firstLine (repo.changeset rv0).desc,
                (repo.changeset rv0).user⟩ : BranchRec)]).map BranchRec.branch
              ↔ bn ∈ un.map BranchRec.branch := by
            simp [hbc]
          rw [e1, e3]
          exact hone
        · refine ih _ _ _ _ _ _ hres hnd' bn ?_
          have e2 : bn ∈ (ch ++
              [(⟨(repo.changeset rv0).branch, mc (rv0 + 1), rv0,
                firstLine (repo.changeset rv0).desc,
                (repo.changeset rv0).user⟩ : BranchRec)]).map BranchRec.branch
              ↔ bn ∈ ch.map BranchRec.branch := by
            simp [hbc]
          rw [e1, e2]
          exact hone
    · rw [if_neg hcs] at hres
      exact Option.noConfusion hres

theorem tagLoop_mem_stable {repo : Repo} {mc : Int → Option PyBytes}
    {mpc : Node → Option Int} {maxv : Int} :
    ∀ (ts : List (String × Node)) (good bad g b : List TagRec),
      tagLoop repo mc mpc maxv ts good bad = some (g, b) →
      ∀ t, t ∉ ts.map Prod.fst →
        ((t ∈ g.map TagRec.tag ↔ t ∈ good.map TagRec.tag) ∧
         (t ∈ b.map TagRec.tag ↔ t ∈ bad.map TagRec.tag)) := by
  intro ts
  induction ts with
  | nil =>
    intro good bad g b hres t _
    simp only [tagLoop, Option.some.injEq, Prod.mk.injEq] at hres
    rw [hres.1, hres.2]
    exact ⟨Iff.rfl, Iff.rfl⟩
  | cons hd rest ih =>
    obtain ⟨t0, n0⟩ := hd
    intro good bad g b hres t ht
    simp only [List.map_cons, List.mem_cons, not_or] at ht
    obtain ⟨hne, hrest⟩ := ht
    by_cases htip : t0 = "tip"
    · simp only [tagLoop, if_pos htip] at hres
      exact ih good bad g b hres t hrest
    · cases hmpc : mpc n0 with
      | none =>
        simp only [tagLoop, if_neg htip, hmpc] at hres
        exact Option.noConfusion hres
      | some rev =>
        simp only [tagLoop, if_neg htip, hmpc] at hres
        split at hres
        · have hmain := ih _ _ _ _ hres t hrest
          refine ⟨hmain.1, ?_⟩
          rw [hmain.2]
          simp [hne]
        · have hmain := ih _ _ _ _ hres t hrest
          refine ⟨?_, hmain.2⟩
          rw [hmain.1]
          simp [hne]

theorem tagLoop_mapping_some {repo : Repo} {mc : Int → Option PyBytes}
    {mpc : Node → Option Int} {maxv : Int} :
    ∀ (ts : List (String × Node)) (good bad : List TagRec)
      (r : List TagRec × List TagRec),
      tagLoop repo mc mpc maxv ts good bad = some r →
      ∀ t nd, (t, nd) ∈ ts → t ≠ "tip" → ∃ rev, mpc nd = some rev := by
  intro ts
  induction ts with
  | nil =>
    intro good bad r _ t nd h
    simp at h
  | cons hd rest ih =>
    obtain ⟨t0, n0⟩ := hd
    intro good bad r hres t nd hmem htip
    by_cases htip0 : t0 = "tip"
    · simp only [tagLoop, if_pos htip0] at hres
      rcases List.mem_cons.mp hmem with heq | hmem'
      · obtain ⟨h1, _⟩ := Prod.mk.injEq .. ▸ heq
        exact absurd (h1.trans htip0) htip
      · exact ih _ _ _ hres t nd hmem' htip
    · cases hmpc : mpc n0 with
      | none =>
        simp only [tagLoop, if_neg htip0, hmpc] at hres
        exact Option.noConfusion hres
      | some rev =>
        rcases List.mem_cons.mp hmem with heq | hmem'
        · obtain ⟨_, h2⟩ := Prod.mk.injEq .. ▸ heq
          exact ⟨rev, h2 ▸ hmpc⟩
        · simp only [tagLoop, if_neg htip0, hmpc] at hres
          split at hres
          · exact ih _ _ _ hres t nd hmem' htip
          · exact ih _ _ _ hres t nd hmem' htip

theorem tagLoop_classify {repo : Repo} {mc : Int → Option PyBytes}
    {mpc : Node → Option Int} {maxv : Int} :
    ∀ (ts : List (String × Node)) (good bad g b : List TagRec),
      tagLoop repo mc mpc maxv ts good bad = some (g, b) →
      (ts.map Prod.fst).Nodup →
      ∀ t nd rev, (t, nd) ∈ ts → t ≠ "tip" → mpc nd = some rev →
        t ∉ good.map TagRec.tag → t ∉ bad.map TagRec.tag →
        ((t ∈ b.map TagRec.tag ↔ maxv < rev) ∧
         (t ∈ g.map TagRec.tag ↔ ¬ maxv < rev)) := by
  intro ts
  induction ts with
  | nil =>
    intro good bad g b _ _ t nd rev h
    simp at h
  | cons hd rest ih =>
    obtain ⟨t0, n0⟩ := hd
    intro good bad g b hres hnd t nd rev hmem htip hmpc hg hb
    rw [List.map_cons] at hnd
    have hnd' := List.nodup_cons.mp hnd
    by_cases htip0 : t0 = "tip"
    · simp only [tagLoop, if_pos htip0] at hres
      rcases List.mem_cons.mp hmem with heq | hmem'
      · obtain ⟨h1, _⟩ := Prod.mk.injEq .. ▸ heq
        exact absurd (h1.trans htip0) htip
      · exact ih _ _ _ _ hres hnd'.2 t nd rev hmem' htip hmpc hg hb
    · cases hm0 : mpc n0 with
      | none =>
        simp only [tagLoop, if_neg htip0, hm0] at hres
        exact Option.noConfusion hres
      | some rev0 =>
        simp only [tagLoop, if_neg htip0, hm0] at hres
        rcases List.mem_cons.mp hmem with heq | hmem'
        · -- the head entry is the tag in question
          obtain ⟨h1, h2⟩ := Prod.mk.injEq .. ▸ heq
          rw [← h2, hmpc] at hm0
          have hrev : rev0 = rev := (Option.some.inj hm0).symm
          rw [← h1] at hres
          rw [hrev] at hres
          have hstable0 : t ∉ rest.map Prod.fst := by
            rw [h1]
            exact hnd'.1
          by_cases hlt : maxv < rev
          · rw [if_pos hlt] at hres
            have hstable := tagLoop_mem_stable rest good _ g b hres t hstable0
            refine ⟨?_, ?_⟩
            · rw [hstable.2]
              simp [hlt, hb]
            · rw [hstable.1]
              simp [hlt, hg]
          · rw [if_neg hlt] at hres
            have hstable := tagLoop_mem_stable rest _ bad g b hres t hstable0
            refine ⟨?_, ?_⟩
            · rw [hstable.2]
              simp [hlt, hb]
            · rw [hstable.1]
              simp [hlt, hg]
        · -- the tag in question lies further down the list
          have htr : t ∈ rest.map Prod.fst :=
            List.mem_map.mpr ⟨(t, nd), hmem', rfl⟩
          have hne : t ≠ t0 := by
            intro h
            exact hnd'.1 (h ▸ htr)
          split at hres
          · refine ih _ _ _ _ hres hnd'.2 t nd rev hmem' htip hmpc hg ?_
            simp [hb, hne]
          · refine ih _ _ _ _ hres hnd'.2 t nd rev hmem' htip hmpc ?_ hb
            simp [hg, hne]

/-- C2 (code bug): `get_branches` compares the branch's recorded git
identifier with the marks-cache entry using Python `is` (object
identity), not `==` (value equality).  Over `repoB`, branch `b` records a
byte string of value `abc` and the marks cache holds, under key
`rev + 1 = 1`, a distinct object of the same value `abc`; the claim (and
the spec) say the head is classified unchanged, yet the code classifies
it changed — `unchanged` is empty. -/
theorem git_sha1_identity_comparison_bug :
    repoB.git_sha1 "b" = some ⟨1, "abc"⟩ ∧
    marksB ((0 : Int) + 1) = some ⟨2, "abc"⟩ ∧
    (PyBytes.mk 1 "abc").val = (PyBytes.mk 2 "abc").val ∧
    get_branches repoB ["b"] marksB 1 =
      some ([], [⟨"b", some ⟨2, "abc"⟩, 0, "msg", "alice"⟩], []) := by
  decide

/-- C3 (confirmed): for every tag other than `tip` in the tag list (tag
names distinct, as mercurial's tag dictionary guarantees), whose owning
revision `rev` resolves via the mapping cache, a successful `get_tags`
pass places the tag in `bad` exactly when `rev` strictly exceeds the
ceiling `max`, and in `good` exactly otherwise. -/
theorem get_tags_classification (repo : Repo) (mc : Int → Option PyBytes)
    (mpc : Node → Option Int) (maxv : Int) (good bad : List TagRec)
    (hres : get_tags repo mc mpc maxv = some (good, bad))
    (hnd : (repo.tagslist.map Prod.fst).Nodup)
    (t : String) (nd : Node) (rev : Int)
    (hmem : (t, nd) ∈ repo.tagslist) (htip : t ≠ "tip")
    (hmpc : mpc nd = some rev) :
    (t ∈ bad.map TagRec.tag ↔ maxv < rev) ∧
    (t ∈ good.map TagRec.tag ↔ ¬ maxv < rev) := by
  unfold get_tags at hres
  cases h0 : tagLoop repo mc mpc maxv repo.tagslist [] [] with
  | none =>
    rw [h0] at hres
    exact Option.noConfusion hres
  | some gb =>
    obtain ⟨g0, b0⟩ := gb
    rw [h0] at hres
    simp only [Option.some.injEq, Prod.mk.injEq] at hres
    obtain ⟨hgq, hbq⟩ := hres
    have hcl := tagLoop_classify repo.tagslist [] [] g0 b0 h0 hnd t nd rev
      hmem htip hmpc (by simp) (by simp)
    constructor
    · rw [← hbq, mem_map_sortLe]
      exact hcl.1
    · rw [← hgq, mem_map_sortLe]
      exact hcl.2

/-- C3 witness: the tag `v1` mapped to revision 10 is classified bad with
ceiling 6 and good with ceiling 11. -/
theorem get_tags_classification_witness :
    (("v1" ∈ ([⟨"v1", "b", none, 10, "msg", "alice"⟩] : List TagRec).map
        TagRec.tag ↔ (6 : Int) < 10) ∧
     ("v1" ∈ ([] : List TagRec).map TagRec.tag ↔ ¬ (6 : Int) < 10)) ∧
    (("v1" ∈ ([] : List TagRec).map TagRec.tag ↔ (11 : Int) < 10) ∧
     ("v1" ∈ ([⟨"v1", "b", none, 10, "msg", "alice"⟩] : List TagRec).map
        TagRec.tag ↔ ¬ (11 : Int) < 10)) :=
  ⟨get_tags_classification repoT marksNone mpcT 6 []
      [⟨"v1", "b", none, 10, "msg", "alice"⟩] (by decide) (by decide)
      "v1" "nt" 10 (by decide) (by decide) (by decide),
   get_tags_classification repoT marksNone mpcT 11
      [⟨"v1", "b", none, 10, "msg", "alice"⟩] [] (by decide) (by decide)
      "v1" "nt" 10 (by decide) (by decide) (by decide)⟩

/-- C4 (confirmed): after a successful classification pass (branch names
in the heads cache distinct, as dict keys are; tag names distinct, as
mercurial guarantees), every branch name present in the heads cache lies
in exactly one of the three collections stale, changed, unchanged
returned by `get_branches`, and every tag other than `tip` lies in
exactly one of the two collections good, bad returned by `get_tags`. -/
theorem classification_partition (repo : Repo) (heads_cache : List String)
    (mc : Int → Option PyBytes) (mpc : Node → Option Int) (maxv : Int)
    (stale : List String) (changed unchanged : List BranchRec)
    (good bad : List TagRec)
    (hndB : heads_cache.Nodup)
    (hndT : (repo.tagslist.map Prod.fst).Nodup)
    (hB : get_branches repo heads_cache mc maxv =
      some (stale, changed, unchanged))
    (hT : get_tags repo mc mpc maxv = some (good, bad)) :
    (∀ bn ∈ heads_cache,
      exactlyOne3 (bn ∈ stale) (bn ∈ changed.map BranchRec.branch)
        (bn ∈ unchanged.map BranchRec.branch)) ∧
    (∀ t nd, (t, nd) ∈ repo.tagslist → t ≠ "tip" →
      ((t ∈ good.map TagRec.tag ∧ t ∉ bad.map TagRec.tag) ∨
       (t ∉ good.map TagRec.tag ∧ t ∈ bad.map TagRec.tag))) := by
  constructor
  · intro bn hbn
    unfold get_branches at hB
    cases h0 : branchLoop repo mc (heads repo.cl none [] (some maxv))
        heads_cache [] [] with
    | none =>
      rw [h0] at hB
      exact Option.noConfusion hB
    | some r0 =>
      obtain ⟨s0, c0, u0⟩ := r0
      rw [h0] at hB
      simp only [Option.some.injEq, Prod.mk.injEq] at hB
      obtain ⟨hs, hc, hu⟩ := hB
      have hone : exactlyOne3 (bn ∈ heads_cache)
          (bn ∈ ([] : List BranchRec).map BranchRec.branch)
          (bn ∈ ([] : List BranchRec).map BranchRec.branch) :=
        Or.inl ⟨hbn, by simp, by simp⟩
      have hfin := branchLoop_partition _ _ _ _ _ _ _ h0 hndB bn hone
      rw [← hs, ← hc, ← hu]
      have e2 : bn ∈ (sortLe brLe c0).map BranchRec.branch ↔
          bn ∈ c0.map BranchRec.branch := mem_map_sortLe
      have e3 : bn ∈ (sortLe brLe u0).map BranchRec.branch ↔
          bn ∈ u0.map BranchRec.branch := mem_map_sortLe
      rw [e2, e3]
      exact hfin
  · intro t nd hmem htip
    unfold get_tags at hT
    cases h1 : tagLoop repo mc mpc maxv repo.tagslist [] [] with
    | none =>
      rw [h1] at hT
      exact Option.noConfusion hT
    | some gb =>
      obtain ⟨g0, b0⟩ := gb
      rw [h1] at hT
      simp only [Option.some.injEq, Prod.mk.injEq] at hT
      obtain ⟨hgq, hbq⟩ := hT
      obtain ⟨rev, hrev⟩ := tagLoop_mapping_some _ _ _ _ h1 t nd hmem htip
      have hcl := tagLoop_classify repo.tagslist [] [] g0 b0 h1 hndT t nd rev
        hmem htip hrev (by simp) (by simp)
      rw [← hgq, ← hbq]
      by_cases hlt : maxv < rev
      · exact Or.inr ⟨by rw [mem_map_sortLe, hcl.2]; simp [hlt],
          by rw [mem_map_sortLe]; exact hcl.1.mpr hlt⟩
      · exact Or.inl ⟨by rw [mem_map_sortLe]; exact hcl.2.mpr hlt,
          by rw [mem_map_sortLe, hcl.1]; exact hlt⟩

/-- C4 witness: over `repoT` with heads cache `{b}`, mapping `nt ↦ 0` and
ceiling 1, the single branch `b` lands exactly in `changed` and the
single tag `v1` exactly in `good`. -/
theorem classification_partition_witness :
    exactlyOne3 (("b" : String) ∈ ([] : List String))
      ("b" ∈ ([⟨"b", none, 0, "msg", "alice"⟩] : List BranchRec).map
        BranchRec.branch)
      ("b" ∈ ([] : List BranchRec).map BranchRec.branch) ∧
    ((("v1" : String) ∈ ([⟨"v1", "b", none, 0, "msg", "alice"⟩] :
        List TagRec).map TagRec.tag ∧
      "v1" ∉ ([] : List TagRec).map TagRec.tag) ∨
     ("v1" ∉ ([⟨"v1", "b", none, 0, "msg", "alice"⟩] :
        List TagRec).map TagRec.tag ∧
      "v1" ∈ ([] : List TagRec).map TagRec.tag)) :=
  ⟨(classification_partition repoT ["b"] marksNone mpcW 1
      [] [⟨"b", none, 0, "msg", "alice"⟩] []
      [⟨"v1", "b", none, 0, "msg", "alice"⟩] []
      (by decide) (by decide) (by decide) (by decide)).1 "b" (by decide),
   (classification_partition repoT ["b"] marksNone mpcW 1
      [] [⟨"b", none, 0, "msg", "alice"⟩] []
      [⟨"v1", "b", none, 0, "msg", "alice"⟩] []
      (by decide) (by decide) (by decide) (by decide)).2 "v1" "nt"
      (by decide) (by decide)⟩

/-- C9 (confirmed): when the head scan returns a head whose branch name
is not a key of the heads cache, `get_branches` fails with the uncaught
`KeyError` from `del stale[branch]` (modelled as `none`) and returns no
classification at all. -/
theorem get_branches_unknown_branch_fails (repo : Repo)
    (heads_cache : List String) (mc : Int → Option PyBytes) (maxv : Int)
    (nd : Node) (rv : Int)
    (hmem : (nd, rv) ∈ heads repo.cl none [] (some maxv))
    (hnb : (repo.changeset rv).branch ∉ heads_cache) :
    get_branches repo heads_cache mc maxv = none := by
  unfold get_branches
  cases h0 : branchLoop repo mc (heads repo.cl none [] (some maxv))
      heads_cache [] [] with
  | none => rfl
  | some r =>
    exact absurd (branchLoop_some_branch_mem _ _ _ _ _ h0 nd rv hmem) hnb

/-- C9 witness: over `repoB`, whose single head lies on branch `b`, and a
heads cache holding only branch `c`, `get_branches` returns no
classification. -/
theorem get_branches_unknown_branch_fails_witness :
    get_branches repoB ["c"] marksB 1 = none :=
  get_branches_unknown_branch_fails repoB ["c"] marksB 1 "n0" 0
    (by decide) (by decide)

end HgReset
